import Mathlib

/-!
Verification of the page-to-S-expression compaction algorithm of
`src/tools/handlers.ts` (tool `puppeteer_get_compact_page_representation`,
lines 384-692).  The browser-side script is embedded shallowly: DOM nodes
become the inductive `Node`, attribute collections become ordered
association lists with lower-cased names (mirroring the HTML DOM's
normalisation of attribute names), and every pipeline pass becomes a pure
recursive function translated clause by clause from the JavaScript.
JavaScript string primitives (`trim`, `toLowerCase`, `startsWith`,
`includes`, `split`) are re-implemented over `List Char` so that every
definition evaluates inside the kernel.
-/

/-! ## JavaScript string primitives -/

/-- The whitespace class of the JavaScript `\s` regular-expression escape and
of `String.prototype.trim`: ASCII whitespace plus the Unicode space
separators, NBSP and the BOM. -/
def isJsSpace (c : Char) : Bool :=
  c = ' ' || c = '\t' || c = '\n' || c = '\r' || c = '\x0b' || c = '\x0c' ||
  c = ' ' || c = ' ' || c = ' ' || c = ' ' || c = ' ' ||
  c = ' ' || c = ' ' || c = ' ' || c = ' ' || c = ' ' ||
  c = ' ' || c = ' ' || c = ' ' || c = ' ' || c = ' ' ||
  c = ' ' || c = ' ' || c = '　' || c = '﻿'

/-- `s.toLowerCase()` (ASCII range, which covers all tag and attribute
names this pipeline compares). -/
def lowerStr (s : String) : String := ⟨s.data.map Char.toLower⟩

/-- `s.trim()` on a character list. -/
def jsTrimList (l : List Char) : List Char :=
  (l.dropWhile isJsSpace).rdropWhile isJsSpace

/-- `s.trim()`. -/
def jsTrim (s : String) : String := ⟨jsTrimList s.data⟩

/-- `s.startsWith(pre)`. -/
def strStarts (s pre : String) : Bool := decide (pre.data <+: s.data)

/-- `s.includes(sub)`. -/
def strContainsSub (s sub : String) : Bool := decide (sub.data <:+: s.data)

/-- `String.prototype.split` with a single-character separator, on
character lists.  `[]` splits to `[[]]`, exactly as `''.split(c)` yields
`['']`. -/
def splitCharList (sep : Char) : List Char → List (List Char)
  | [] => [[]]
  | c :: rest =>
    if c = sep then [] :: splitCharList sep rest
    else
      match splitCharList sep rest with
      | [] => [[c]]
      | p :: ps => (c :: p) :: ps

/-- `s.split(sep)` for a one-character separator. -/
def splitStr (sep : Char) (s : String) : List String :=
  (splitCharList sep s.data).map String.mk

/-- Splitting at every character satisfying `p` (empty pieces included),
used to model `split(/\s+/)` composed with `filter(Boolean)`. -/
def splitPredList (p : Char → Bool) : List Char → List (List Char)
  | [] => [[]]
  | c :: rest =>
    if p c then [] :: splitPredList p rest
    else
      match splitPredList p rest with
      | [] => [[c]]
      | q :: ps => (c :: q) :: ps

/-- `s.split(/\s+/).filter(Boolean)`: the maximal runs of non-whitespace
characters of `s`, in order. -/
def wsTokens (s : String) : List String :=
  ((splitPredList isJsSpace s.data).filter (· ≠ [])).map String.mk

/-- `arr.join(sep)`. -/
def joinSep (sep : String) : List String → String
  | [] => ""
  | x :: xs => xs.foldl (fun acc y => acc ++ sep ++ y) x

/-- Concatenation of a list of strings. -/
def concatAll (l : List String) : String := l.foldl (· ++ ·) ""

/-- `normText` of the serializer: collapse whitespace runs to single
spaces and trim the ends. -/
def normText (s : String) : String := joinSep " " (wsTokens s)

/-- Escaping of one character inside a serialized quoted string:
backslash, double quote, newline and tab are escaped; everything else
passes through (function `q` of the source). -/
def escChar (c : Char) : List Char :=
  if c = '\\' then ['\\', '\\']
  else if c = '"' then ['\\', '"']
  else if c = '\n' then ['\\', 'n']
  else if c = '\t' then ['\\', 't']
  else [c]

/-- The serializer's `q`: quote and escape a string. -/
def q (s : String) : String :=
  "\"" ++ (⟨(s.data.map escChar).foldr (· ++ ·) []⟩ : String) ++ "\""

/-- `' '.repeat(n)`. -/
def spaces (n : Nat) : String := ⟨List.replicate n ' '⟩

/-- JavaScript string comparison `a < b` (code-unit lexicographic; all
attribute names compared here are ASCII, where code-unit and code-point
order agree), on character lists. -/
def listLtChar : List Char → List Char → Bool
  | [], [] => false
  | [], _ :: _ => true
  | _ :: _, [] => false
  | x :: xs, y :: ys => if x < y then true else if y < x then false else listLtChar xs ys

/-- JavaScript `a < b` on strings. -/
def strLt (a b : String) : Bool := listLtChar a.data b.data

/-- Stable insertion of one keyed pair into a sorted list: the element
stops before the first entry whose key is not smaller, so entries that
compare equal keep their original relative order, exactly the guarantee
of `Array.prototype.sort` with the comparator of `attrItems`. -/
def jsSortInsert (x : String × String) : List (String × String) → List (String × String)
  | [] => [x]
  | y :: ys => if strLt y.1 x.1 then y :: jsSortInsert x ys else x :: y :: ys

/-- Stable sort by key, the semantics of `acc.sort((a,b) => a[0] < b[0] ? -1 :
a[0] > b[0] ? 1 : 0)` in `attrItems`. -/
def jsSort : List (String × String) → List (String × String)
  | [] => []
  | x :: xs => jsSortInsert x (jsSort xs)

/-! ## DOM model -/

/-- A detached DOM node: the working tree the pipeline mutates.  Attribute
names are stored lower-cased and tag names lower-cased, mirroring the HTML
DOM normalisation that `tagName.toLowerCase()` and `getAttributeNames()`
expose to the script.  Attribute order is document order, the order
`getAttributeNames()` reports. -/
inductive Node where
  | text (s : String)
  | comment (s : String)
  | elem (tag : String) (attrs : List (String × String)) (children : List Node)

/-- `el.getAttribute(k)`: `none` models `null`. -/
def getAttr (a : List (String × String)) (k : String) : Option String :=
  (a.find? (fun p => p.1 == k)).map (·.2)

/-- `el.getAttribute(k) || ''`. -/
def getAttrD (a : List (String × String)) (k : String) : String :=
  (getAttr a k).getD ""

/-- `el.hasAttribute(k)`. -/
def hasAttr (a : List (String × String)) (k : String) : Bool :=
  (getAttr a k).isSome

/-- `el.setAttribute(k, v)`: replace in place when present, append when
absent. -/
def setAttr : List (String × String) → String → String → List (String × String)
  | [], k, v => [(k, v)]
  | (k0, v0) :: rest, k, v =>
    if k0 == k then (k0, v) :: rest else (k0, v0) :: setAttr rest k v

/-- `el.className` (the reflected `class` attribute, `''` when absent). -/
def className (a : List (String × String)) : String := getAttrD a "class"

/-! ## Static tables and options (lines 387-425, 530-541) -/

/-- The fixed denylist `REMOVE_TAGS` (line 412). -/
def REMOVE_TAGS : List String :=
  ["script", "style", "noscript", "template", "meta", "link", "svg", "math"]

/-- The allowed-HTML-tag vocabulary `ALLOWED_HTML_TAGS` (lines 413-425). -/
def ALLOWED_HTML_TAGS : List String :=
  ["html", "head", "title", "base", "link", "meta", "style", "script", "noscript", "body",
   "section", "nav", "article", "aside", "h1", "h2", "h3", "h4", "h5", "h6", "header",
   "footer", "address", "main", "p", "hr", "pre", "blockquote", "ol", "ul", "li", "dl", "dt",
   "dd", "figure", "figcaption", "div", "a", "em", "strong", "small", "s", "cite", "q", "dfn",
   "abbr", "ruby", "rb", "rt", "rtc", "rp", "data", "time", "code", "var", "samp", "kbd",
   "sub", "sup", "i", "b", "u", "mark", "bdi", "bdo", "span", "br", "wbr", "ins", "del",
   "picture", "source", "img", "iframe", "embed", "object", "param", "video", "audio", "track",
   "map", "area", "table", "caption", "colgroup", "col", "tbody", "thead", "tfoot", "tr", "td",
   "th", "form", "label", "input", "button", "select", "datalist", "optgroup", "option", "textarea",
   "output", "progress", "meter", "fieldset", "legend", "details", "summary", "dialog", "slot",
   "template", "canvas", "menu"]

/-- The per-tag attribute allow-list `tagAllow` (lines 530-541). -/
def tagAllow (t : String) : List String :=
  if t == "a" then ["href"]
  else if t == "img" then ["src", "srcset"]
  else if t == "input" then ["type", "name", "value", "checked", "disabled", "placeholder"]
  else if t == "label" then ["for"]
  else if t == "button" then ["type", "name", "value", "disabled"]
  else if t == "select" then ["name", "disabled", "multiple"]
  else if t == "option" then ["value", "selected", "disabled"]
  else if t == "textarea" then ["name", "disabled", "placeholder"]
  else if t == "form" then []
  else if t == "iframe" then ["src"]
  else []

/-- The options record constructed at call entry (lines 387-401). -/
structure Options where
  interactiveTags : List String
  keepAttrs : List String
  stripAttrs : Bool
  dropAriaAttrs : Bool
  dropDataAttrs : Bool
  keepStyle : Bool
  pretty : Bool
  indent : Nat
  cssHead : Bool
  includeIdInHead : Bool
  spanAlias : String
  attrMap : Bool
  relevantOnly : Bool

/-- The constant default options of the tool (lines 387-401): arguments
are ignored and these values are always used. -/
def defaultOptions : Options :=
  { interactiveTags := ["a", "button", "input", "i", "select", "textarea"]
    keepAttrs := ["id", "class", "href", "src", "srcset"]
    stripAttrs := true
    dropAriaAttrs := true
    dropDataAttrs := false
    keepStyle := true
    pretty := false
    indent := 2
    cssHead := true
    includeIdInHead := true
    spanAlias := "span"
    attrMap := true
    relevantOnly := true }

/-- `toLowerSet(opts.keepAttrs)` (`KEEP`, line 409), kept as a list whose
membership is the set membership. -/
def keepLower (opts : Options) : List String := opts.keepAttrs.map lowerStr

/-- `toLowerSet(opts.interactiveTags)` (`INTER`, line 410). -/
def interLower (opts : Options) : List String := opts.interactiveTags.map lowerStr

/-! ## Pipeline stage 1: comment removal (lines 432-441) -/

mutual
/-- `removeComments`: drop comment children and recurse into element
children (text children are left in place). -/
def removeComments : Node → Node
  | .elem t a ch => .elem t a (removeCommentsL ch)
  | n => n

/-- Child-list walk of `removeComments`. -/
def removeCommentsL : List Node → List Node
  | [] => []
  | .comment _ :: rest => removeCommentsL rest
  | .elem t a ch :: rest => removeComments (.elem t a ch) :: removeCommentsL rest
  | c :: rest => c :: removeCommentsL rest
end

/-! ## Pipeline stage 2: denylisted-tag removal (lines 477-480).
`root.querySelectorAll(tag)` only reaches strict descendants, so the root
is exempt. -/

mutual
/-- Recursive descent of the denylist pass into a kept element. -/
def removeBannedN : Node → Node
  | .elem t a ch => .elem t a (removeBannedL ch)
  | n => n

/-- Drop every element of the forest whose tag is in `REMOVE_TAGS`,
subtree included. -/
def removeBannedL : List Node → List Node
  | [] => []
  | .elem t a ch :: rest =>
    if REMOVE_TAGS.contains t then removeBannedL rest
    else removeBannedN (.elem t a ch) :: removeBannedL rest
  | c :: rest => c :: removeBannedL rest
end

/-- The denylist pass applied at the (exempt) root. -/
def removeBannedPass : Node → Node
  | .elem t a ch => .elem t a (removeBannedL ch)
  | n => n

/-! ## Pipeline stage 3: namespaced-tag removal (lines 482-488).
`forEachElement` iterates `root.querySelectorAll('*')`: strict
descendants only. -/

mutual
/-- Recursive descent of the namespaced-tag pass into a kept element. -/
def removeNamespacedN : Node → Node
  | .elem t a ch => .elem t a (removeNamespacedL ch)
  | n => n

/-- Drop every element of the forest whose tag contains `':'`. -/
def removeNamespacedL : List Node → List Node
  | [] => []
  | .elem t a ch :: rest =>
    if t.data.contains ':' then removeNamespacedL rest
    else removeNamespacedN (.elem t a ch) :: removeNamespacedL rest
  | c :: rest => c :: removeNamespacedL rest
end

/-- The namespaced-tag pass applied at the (exempt) root. -/
def removeNamespacedPass : Node → Node
  | .elem t a ch => .elem t a (removeNamespacedL ch)
  | n => n

/-! ## Pipeline stage 4: unwrapping of non-standard elements (lines
490-499).  The snapshot walk visits every element in pre-order, so
children spliced out of an unwrapped element are themselves unwrapped
later; the net effect is the recursive splice below. -/

mutual
/-- One node of the unwrap pass: an allowed element survives with its
children processed, a disallowed element dissolves into its processed
children, text survives unchanged. -/
def unwrapN : Node → List Node
  | .elem t a ch =>
    if ALLOWED_HTML_TAGS.contains t then [.elem t a (unwrapChildren ch)]
    else unwrapChildren ch
  | n => [n]

/-- Unwrap every element of the forest whose tag is not in
`ALLOWED_HTML_TAGS`: its (recursively processed) children are spliced
into its place, in order. -/
def unwrapChildren : List Node → List Node
  | [] => []
  | c :: rest => unwrapN c ++ unwrapChildren rest
end

/-- The unwrap pass applied at the (exempt) root. -/
def unwrapPass : Node → Node
  | .elem t a ch => .elem t a (unwrapChildren ch)
  | n => n

/-! ## Pipeline stage 5: data-URI stripping (lines 501-513) -/

/-- First half of the `img` sanitiser (lines 503-506): clear a `src`
that starts (trimmed, lower-cased) with `data:`. -/
def sanitizeSrc (a : List (String × String)) : List (String × String) :=
  match getAttr a "src" with
  | some src =>
    if src != "" && strStarts (lowerStr (jsTrim src)) "data:" then setAttr a "src" ""
    else a
  | none => a

/-- The rebuilt candidate list of a `srcset` (lines 509-511): split on
commas, trim each candidate, drop those starting with `data:`, rejoin
with `", "`. -/
def srcsetFiltered (srcset : String) : String :=
  joinSep ", " (((splitStr ',' srcset).map jsTrim).filter
    (fun p => !strStarts (lowerStr p) "data:"))

/-- Second half of the `img` sanitiser (lines 507-512): rebuild a
`srcset` whose lower-cased value contains `data:`. -/
def sanitizeSrcset (a : List (String × String)) : List (String × String) :=
  match getAttr a "srcset" with
  | some srcset =>
    if srcset != "" && strContainsSub (lowerStr srcset) "data:" then
      setAttr a "srcset" (srcsetFiltered srcset)
    else a
  | none => a

/-- The body of the `img` sanitiser (lines 502-513): the `src` step
followed by the `srcset` step. -/
def sanitizeImgAttrs (a : List (String × String)) : List (String × String) :=
  sanitizeSrcset (sanitizeSrc a)

mutual
/-- Data-URI stripping on one (non-root) node. -/
def stripDataUrisN : Node → Node
  | .elem t a ch =>
    .elem t (if t == "img" then sanitizeImgAttrs a else a) (stripDataUrisL ch)
  | n => n

/-- Data-URI stripping over a forest: applies the sanitiser to every
`img` element. -/
def stripDataUrisL : List Node → List Node
  | [] => []
  | c :: rest => stripDataUrisN c :: stripDataUrisL rest
end

/-- The data-URI pass applied at the root (`querySelectorAll('img')`
reaches strict descendants only). -/
def stripDataUrisPass : Node → Node
  | .elem t a ch => .elem t a (stripDataUrisL ch)
  | n => n

/-! ## Pipeline stage 6: hidden-subtree pruning (lines 443-472, 515-526) -/

/-- `parseStyleAttr` (lines 443-454): `;`-separated `key:value` pairs,
keys and values trimmed and lower-cased, empty keys skipped.  Later
assignments to the same key override earlier ones, so lookups read the
last occurrence. -/
def parseStyleAttr (styleValue : String) : List (String × String) :=
  (splitStr ';' styleValue).filterMap (fun item =>
    let s := item.data.span (· ≠ ':')
    match s.2 with
    | [] => none
    | _ :: v0 =>
      let k := lowerStr (jsTrim ⟨s.1⟩)
      let v := lowerStr (jsTrim ⟨v0⟩)
      if k ≠ "" then some (k, v) else none)

/-- Lookup in a parsed style record: the last assignment wins. -/
def styleLookup (styles : List (String × String)) (k : String) : Option String :=
  (styles.reverse.find? (fun p => p.1 == k)).map (·.2)

/-- `hasHiddenFlag` (lines 456-472): the self-hidden test of an element
with tag `t` and attributes `a`. -/
def hasHiddenFlag (t : String) (a : List (String × String)) : Bool :=
  hasAttr a "hidden" ||
  (let aria := lowerStr (jsTrim (getAttrD a "aria-hidden"))
   aria == "true" || aria == "1" || aria == "yes") ||
  (t == "input" && lowerStr (jsTrim (getAttrD a "type")) == "hidden") ||
  (let style := getAttrD a "style"
   style ≠ "" &&
   (let s := parseStyleAttr style
    (match styleLookup s "display" with
     | some disp => disp ≠ "" && strContainsSub disp "none"
     | none => false) ||
    (match styleLookup s "visibility" with
     | some vis => vis ≠ "" && strContainsSub vis "hidden"
     | none => false) ||
    (match styleLookup s "opacity" with
     | some op => strStarts (jsTrim op) "0"
     | none => false)))

mutual
/-- `pruneHidden(node, hiddenUpstream)`: the node itself is never tested,
only its children are. -/
def pruneHidden : Node → Bool → Node
  | .elem t a ch, up => .elem t a (pruneHiddenL up ch)
  | n, _ => n

/-- `pruneHidden` over a child list (lines 516-526): an element child is
deleted when `hiddenUpstream || hasHiddenFlag child`; otherwise the walk
recurses into it carrying that (false) flag.  Non-element children are
untouched (`node.children` lists elements only). -/
def pruneHiddenL (up : Bool) : List Node → List Node
  | [] => []
  | .elem t a ch :: rest =>
    let hidden := up || hasHiddenFlag t a
    if hidden then pruneHiddenL up rest
    else pruneHidden (.elem t a ch) hidden :: pruneHiddenL up rest
  | c :: rest => c :: pruneHiddenL up rest
end

/-! ## Pipeline stage 7: attribute stripping (lines 528-559) -/

/-- The allow-list for one element: global `KEEP` plus the per-tag
extras. -/
def allowedFor (keep : List String) (t : String) : List String :=
  keep ++ tagAllow t

/-- The per-attribute decision of the strip pass (lines 549-556): `true`
when the attribute survives. -/
def attrKept (opts : Options) (allowed : List String) (name : String) : Bool :=
  let al := lowerStr name
  if strStarts al "on" then false
  else if al == "style" && !opts.keepStyle then false
  else if allowed.contains al then true
  else if !opts.dropDataAttrs && strStarts al "data-" then true
  else if !opts.dropAriaAttrs && strStarts al "aria-" then true
  else false

/-- The strip pass on one element's attribute list. -/
def stripElemAttrs (opts : Options) (keep : List String) (t : String)
    (a : List (String × String)) : List (String × String) :=
  a.filter (fun p => attrKept opts (allowedFor keep t) p.1)

mutual
/-- The strip pass on one (non-root) node. -/
def stripAttrsN (opts : Options) (keep : List String) : Node → Node
  | .elem t a ch => .elem t (stripElemAttrs opts keep t a) (stripAttrsL opts keep ch)
  | n => n

/-- The strip pass over a forest (every element of every subtree). -/
def stripAttrsL (opts : Options) (keep : List String) : List Node → List Node
  | [] => []
  | c :: rest => stripAttrsN opts keep c :: stripAttrsL opts keep rest
end

/-- The strip pass at the root: `forEachElement` reaches strict
descendants only, so the root's own attributes are untouched. -/
def stripAttrsPass (opts : Options) (keep : List String) : Node → Node
  | .elem t a ch => .elem t a (stripAttrsL opts keep ch)
  | n => n

/-! ## Pipeline stage 8: relevance pruning (lines 561-600) -/

/-- `hasDirectText` (lines 565-570): some direct text child has
non-whitespace content. -/
def hasDirectText (ch : List Node) : Bool :=
  ch.any (fun c =>
    match c with
    | .text s => !(jsTrim s == "")
    | _ => false)

mutual
/-- Whether a node is, or contains, an element with tag in `inter`. -/
def anyElemTagN (inter : List String) : Node → Bool
  | .elem t _ ch => inter.contains t || anyElemTag inter ch
  | _ => false

/-- Existence of an element with tag in `inter` anywhere in the forest
(the `querySelector(interSelector)` descendant test). -/
def anyElemTag (inter : List String) : List Node → Bool
  | [] => false
  | c :: rest => anyElemTagN inter c || anyElemTag inter rest
end

/-- `Array.from(INTER).join(',')` (line 563): the selector string, empty
exactly when it is falsy. -/
def interSelector (inter : List String) : String := joinSep "," inter

/-- `shouldKeep` (lines 572-579), evaluated against the already-pruned
children `ch`. -/
def shouldKeep (inter : List String) (t : String) (a : List (String × String))
    (ch : List Node) : Bool :=
  inter.contains t ||
  !(jsTrim (getAttrD a "id") == "") ||
  hasDirectText ch ||
  (!(interSelector inter == "") && anyElemTag inter ch)

/-- The second loop of `prune` (lines 588-592): delete whitespace-only
text children. -/
def dropWsText (l : List Node) : List Node :=
  l.filter (fun c =>
    match c with
    | .text s => !(jsTrim s == "")
    | _ => true)

/-- The keep verdict of `prune` (lines 593-595), evaluated on the
already-mutated node: `html` and `body` are kept unconditionally,
everything else by `shouldKeep`. -/
def pruneRelKeep (inter : List String) : Node → Bool
  | .elem t a ch2 => t == "html" || t == "body" || shouldKeep inter t a ch2
  | _ => true

mutual
/-- The mutation `prune` performs on one element (lines 581-592): prune
element children post-order, then drop whitespace-only text children. -/
def pruneRelN (inter : List String) : Node → Node
  | .elem t a ch => .elem t a (dropWsText (pruneRelL inter ch))
  | n => n

/-- The child loop of `prune` (lines 583-586): recurse post-order into
element children and drop those for which the predicate is false.
Non-element children are handled by the separate text sweep. -/
def pruneRelL (inter : List String) : List Node → List Node
  | [] => []
  | .elem t a ch :: rest =>
    let c2 := pruneRelN inter (.elem t a ch)
    if pruneRelKeep inter c2 then c2 :: pruneRelL inter rest else pruneRelL inter rest
  | c :: rest => c :: pruneRelL inter rest
end

/-- `prune(node)` on one element (lines 581-596): the mutated node paired
with its keep verdict. -/
def pruneRel (inter : List String) (n : Node) : Node × Bool :=
  let m := pruneRelN inter n
  (m, pruneRelKeep inter m)

/-- The relevance pass at the top (lines 598-599): `prune(top)`'s verdict
is discarded, the root always stays. -/
def pruneRelPass (inter : List String) (n : Node) : Node :=
  (pruneRel inter n).1

/-! ## Pipeline stage 9: serialization (lines 602-673) -/

/-- The serializer's keep-set (line 603): `KEEP` when non-empty,
otherwise the fixed fallback set. -/
def serKeepAttrs (opts : Options) : List String :=
  let k := keepLower opts
  if k.isEmpty then ["id", "class", "name", "href", "src", "srcset", "for", "value", "type", "role"]
  else k

/-- `attrItems` (lines 613-626): the surviving attributes of an element,
head-token extraction applied, lexicographically sorted by name. -/
def attrItems (opts : Options) (serKeep : List String)
    (a : List (String × String)) : List (String × String) :=
  jsSort (a.filterMap (fun p =>
    let k := lowerStr p.1
    if opts.cssHead && k == "class" then none
    else if opts.cssHead && opts.includeIdInHead && k == "id" &&
        !(jsTrim (getAttrD a "id") == "") then none
    else if !(serKeep.contains k) then none
    else
      let v := if k == "class" then (let cn := className a; if cn == "" then p.2 else cn) else p.2
      some (k, v)))

/-- `headToken` (lines 628-642). -/
def headToken (opts : Options) (t : String) (a : List (String × String)) : String :=
  if !opts.cssHead then t
  else
    let base :=
      if t == "div" then ""
      else if t == "span" then (if opts.spanAlias == "" then "sp" else opts.spanAlias)
      else t
    let id := jsTrim (getAttrD a "id")
    let cls := jsTrim (className a)
    let token := base ++ (if opts.includeIdInHead && !(id == "") then "#" ++ id else "")
    let token2 := token ++ concatAll ((wsTokens cls).map (fun c => "." ++ c))
    if token2 == "" then "div" else token2

mutual
/-- `emit` (lines 644-670): one node to its S-expression fragment. -/
def emit (opts : Options) (serKeep : List String) : Node → Nat → String
  | .text s, depth =>
    let txt := normText s
    if txt == "" then ""
    else (if opts.pretty then spaces (opts.indent * depth) else "") ++ q txt
  | .comment _, _ => ""
  | .elem t a ch, depth =>
    let head := (if opts.pretty then spaces (opts.indent * depth) else "") ++ "(" ++ headToken opts t a
    let attrs := attrItems opts serKeep a
    let withAttrs :=
      if opts.attrMap && !attrs.isEmpty then
        head ++ " \x7b" ++ joinSep " " (attrs.map (fun p => ":" ++ p.1 ++ " " ++ q p.2)) ++ "\x7d"
      else head ++ concatAll (attrs.map (fun p => " :" ++ p.1 ++ " " ++ q p.2))
    let frags := emitL opts serKeep ch (depth + 1)
    if frags.isEmpty then withAttrs ++ ")"
    else if opts.pretty then
      withAttrs ++ "\n" ++ joinSep "\n" frags ++ "\n" ++ spaces (opts.indent * depth) ++ ")"
    else withAttrs ++ " " ++ joinSep " " frags ++ ")"

/-- The child-fragment loop of `emit` (lines 660-664): empty fragments
contribute nothing. -/
def emitL (opts : Options) (serKeep : List String) : List Node → Nat → List String
  | [], _ => []
  | c :: rest, depth =>
    let f := emit opts serKeep c depth
    if f == "" then emitL opts serKeep rest depth else f :: emitL opts serKeep rest depth
end

/-! ## The whole pipeline (lines 403-673) -/

/-- The tree right after the last mutation pass, before serialization. -/
def pipelineTree (opts : Options) (root : Node) : Node :=
  let keep := keepLower opts
  let inter := interLower opts
  let r1 := removeComments root
  let r2 := removeBannedPass r1
  let r3 := removeNamespacedPass r2
  let r4 := unwrapPass r3
  let r5 := stripDataUrisPass r4
  let r6 := pruneHidden r5 false
  let r7 := if opts.stripAttrs then stripAttrsPass opts keep r6 else r6
  if opts.relevantOnly then pruneRelPass inter r7 else r7

/-- `compactPage`: the full compaction of a detached root into its
S-expression string. -/
def compactPage (opts : Options) (root : Node) : String :=
  emit opts (serKeepAttrs opts) (pipelineTree opts root) 0

/-! ## Auxiliary observers and reference definitions used by the
verification -/

/-- The tag of a root node (elements only; non-elements have none). -/
def rootTag : Node → String
  | .elem t _ _ => t
  | _ => ""

/-- The child list of a node (empty for non-elements). -/
def childrenOf : Node → List Node
  | .elem _ _ ch => ch
  | _ => []

mutual
/-- The tags of all elements of a subtree, the node itself included. -/
def elemTagsN : Node → List String
  | .elem t _ ch => t :: elemTagsL ch
  | _ => []

/-- The tags of all elements of a forest. -/
def elemTagsL : List Node → List String
  | [] => []
  | c :: rest => elemTagsN c ++ elemTagsL rest
end

mutual
/-- Modelled from the claim under scrutiny, not from the source: a
simplified visibility pruner that pre-order deletes the subtree of every
element that is itself self-hidden and carries no inherited flag at all.
It is compared with `pruneHidden` (the source translation). -/
def pruneHiddenSimpleN : Node → Node
  | .elem t a ch => .elem t a (pruneHiddenSimpleL ch)
  | n => n

/-- Child walk of the simplified visibility pruner. -/
def pruneHiddenSimpleL : List Node → List Node
  | [] => []
  | .elem t a ch :: rest =>
    if hasHiddenFlag t a then pruneHiddenSimpleL rest
    else pruneHiddenSimpleN (.elem t a ch) :: pruneHiddenSimpleL rest
  | c :: rest => c :: pruneHiddenSimpleL rest
end

/-- The minimal document `<div id="x"><button>Go</button></div>` inside
its `html`/`body` shell. -/
def docMinimal : Node :=
  .elem "html" []
    [.elem "body" []
      [.elem "div" [("id", "x")]
        [.elem "button" [] [.text "Go"]]]]

/-- A document whose `button#b1` sits inside nested unknown custom
elements. -/
def docWidget : Node :=
  .elem "html" []
    [.elem "body" []
      [.elem "my-widget" [("class", "w")]
        [.elem "inner-widget" []
          [.elem "button" [("id", "b1")] [.text "Hi"]]]]]

/-- A document carrying a `script` subtree with nested elements and
text next to a surviving button. -/
def docScript : Node :=
  .elem "html" []
    [.elem "body" []
      [.elem "script" []
        [.elem "div" [("id", "evil")] [.text "bad"], .text "var x = 1;"],
       .elem "button" [] [.text "OK"]]]

/-! ## Shared infrastructure lemmas -/

/-- Simultaneous structural induction over nodes and forests. -/
theorem nodeForestInduction {P : Node → Prop} {Q : List Node → Prop}
    (htext : ∀ s, P (.text s)) (hcomment : ∀ s, P (.comment s))
    (helem : ∀ t a ch, Q ch → P (.elem t a ch))
    (hnil : Q []) (hcons : ∀ c l, P c → Q l → Q (c :: l)) :
    (∀ n, P n) ∧ (∀ l, Q l) := by
  have hn : ∀ n, P n := fun n => @Node.rec P Q htext hcomment helem hnil hcons n
  refine ⟨hn, ?_⟩
  intro l
  induction l with
  | nil => exact hnil
  | cons c l ih => exact hcons c l (hn c) ih

/-! ## Claims C1, C2, C6 -/

/-- Claim C1: the minimal document `<div id="x"><button>Go</button></div>`
compacted with the default options serializes its `div` to exactly
`(#x (button "Go"))` — empty base head plus `#x`, bare `button` head with
the normalized text child, and no other fragments — and the whole page
serializes to `(html (body (#x (button "Go"))))`. -/
theorem claim_C1 :
    compactPage defaultOptions docMinimal = "(html (body (#x (button \"Go\"))))" ∧
    emit defaultOptions (serKeepAttrs defaultOptions)
      (.elem "div" [("id", "x")] [.elem "button" [] [.text "Go"]]) 0
      = "(#x (button \"Go\"))" :=
  ⟨rfl, rfl⟩

/-- Claim C2: when `stripAttrs` runs with `keepStyle = false`, the
`style` attribute is removed from every element even when `"style"` is in
the allow-list (the style removal precedes the allow-list check); with
`keepStyle = true` the removal does not fire and `style` survives exactly
when the allow-list contains it (the `data-`/`aria-` fallbacks cannot
match the name `style`, so otherwise it is removed). -/
theorem claim_C2 (opts : Options) (allowed keep : List String) (t : String)
    (a : List (String × String)) :
    (opts.keepStyle = false → attrKept opts allowed "style" = false) ∧
    (opts.keepStyle = false → getAttr (stripElemAttrs opts keep t a) "style" = none) ∧
    (opts.keepStyle = true → attrKept opts allowed "style" = allowed.contains "style") := by
  have elow : lowerStr "style" = "style" := rfl
  have eon : strStarts "style" "on" = false := rfl
  have edata : strStarts "style" "data-" = false := rfl
  have earia : strStarts "style" "aria-" = false := rfl
  refine ⟨?_, ?_, ?_⟩
  · intro h
    simp [attrKept, elow, eon, h]
  · intro h
    have hstyle : ∀ name, name = "style" →
        attrKept opts (allowedFor keep t) name = false := by
      intro name hn
      subst hn
      simp [attrKept, elow, eon, h]
    have hfind : List.find? (fun p => p.1 == "style") (stripElemAttrs opts keep t a) = none := by
      rw [List.find?_eq_none]
      intro x hx hpx
      have hmem := List.mem_filter.mp hx
      have hkeep : attrKept opts (allowedFor keep t) x.1 = true := hmem.2
      have hx1 : x.1 = "style" := by simpa using hpx
      rw [hstyle x.1 hx1] at hkeep
      exact Bool.false_ne_true hkeep
    simp [getAttr, hfind]
  · intro h
    by_cases hc : allowed.contains "style" = true
    · have hmem : "style" ∈ allowed := List.mem_of_elem_eq_true hc
      simp [attrKept, elow, eon, h, hc, hmem]
    · simp only [Bool.not_eq_true] at hc
      have hmem : "style" ∉ allowed := fun hm => by
        have h2 : allowed.contains "style" = true := List.elem_eq_true_of_mem hm
        rw [h2] at hc
        exact absurd hc (by simp)
      simp [attrKept, elow, eon, edata, earia, h, hc, hmem]

/-- Witness for C2 at concrete inputs. -/
theorem claim_C2_witness :
    attrKept defaultOptions ["style"] "style" = List.contains ["style"] "style" ∧
    attrKept { defaultOptions with keepStyle := false } ["style"] "style" = false ∧
    getAttr (stripElemAttrs { defaultOptions with keepStyle := false }
      (keepLower defaultOptions) "div" [("style", "color:red")]) "style" = none :=
  ⟨(claim_C2 defaultOptions ["style"] [] "div" []).2.2 rfl,
   (claim_C2 { defaultOptions with keepStyle := false } ["style"] [] "div" []).1 rfl,
   (claim_C2 { defaultOptions with keepStyle := false } [] (keepLower defaultOptions)
     "div" [("style", "color:red")]).2.1 rfl⟩

/-- Claim C6: under `stripAttrs`, any attribute whose (lower-cased) name
starts with `on` is removed unconditionally, even when listed in the
allow-list; and an attribute `data-foo` outside the allow-list is kept
exactly when `dropDataAttrs` is false. -/
theorem claim_C6 (opts : Options) (allowed : List String) :
    (∀ name, strStarts (lowerStr name) "on" = true → attrKept opts allowed name = false) ∧
    (allowed.contains "data-foo" = false →
      attrKept opts allowed "data-foo" = !opts.dropDataAttrs) := by
  have elow : lowerStr "data-foo" = "data-foo" := rfl
  have eon : strStarts "data-foo" "on" = false := rfl
  have estyle : ("data-foo" == "style") = false := rfl
  have edata : strStarts "data-foo" "data-" = true := rfl
  have earia : strStarts "data-foo" "aria-" = false := rfl
  constructor
  · intro name h
    simp [attrKept, h]
  · intro h
    have hmem : "data-foo" ∉ allowed := fun hm => by
      have h2 : allowed.contains "data-foo" = true := List.elem_eq_true_of_mem hm
      rw [h2] at h
      exact absurd h (by simp)
    cases hd : opts.dropDataAttrs <;>
      simp [attrKept, elow, eon, estyle, edata, earia, h, hd, hmem]

/-- Witness for C6 at concrete inputs: `onclick` is stripped although
listed, and `data-foo` survives under the default `dropDataAttrs = false`. -/
theorem claim_C6_witness :
    attrKept defaultOptions ["onclick"] "onclick" = false ∧
    attrKept defaultOptions [] "data-foo" = !defaultOptions.dropDataAttrs :=
  ⟨(claim_C6 defaultOptions ["onclick"]).1 "onclick" rfl,
   (claim_C6 defaultOptions []).2 rfl⟩


/-! ## Claim C8: data-URI stripping -/

/-- Setting an attribute makes it readable back. -/
theorem getAttr_setAttr_self (a : List (String × String)) (k v : String) :
    getAttr (setAttr a k v) k = some v := by
  induction a with
  | nil => simp [setAttr, getAttr]
  | cons p rest ih =>
    by_cases h : p.1 = k
    · simp [setAttr, getAttr, h]
    · have hb : (p.1 == k) = false := by simpa using h
      simpa [setAttr, getAttr, hb] using ih

/-- Setting an attribute leaves every other attribute unchanged. -/
theorem getAttr_setAttr_ne (a : List (String × String)) (k k' v : String)
    (h : (k == k') = false) : getAttr (setAttr a k v) k' = getAttr a k' := by
  induction a with
  | nil => simp [setAttr, getAttr, h]
  | cons p rest ih =>
    by_cases hp : p.1 = k
    · subst hp
      simp [setAttr, getAttr, h]
    · have hb : (p.1 == k) = false := by simpa using hp
      by_cases hp' : p.1 = k'
      · subst hp'
        simp [setAttr, getAttr, hb]
      · have hb' : (p.1 == k') = false := by simpa using hp'
        simpa [setAttr, getAttr, hb, hb'] using ih

/-- The `srcset` step never touches `src`. -/
theorem getAttr_sanitizeSrcset_src (a : List (String × String)) :
    getAttr (sanitizeSrcset a) "src" = getAttr a "src" := by
  unfold sanitizeSrcset
  cases h : getAttr a "srcset" with
  | none => rfl
  | some srcset =>
    show getAttr (if srcset != "" && strContainsSub (lowerStr srcset) "data:" then
      setAttr a "srcset" (srcsetFiltered srcset) else a) "src" = getAttr a "src"
    by_cases hc : (srcset != "" && strContainsSub (lowerStr srcset) "data:") = true
    · rw [if_pos hc]
      exact getAttr_setAttr_ne _ _ _ _ (by decide)
    · rw [if_neg hc]

/-- The `src` step never touches `srcset`. -/
theorem getAttr_sanitizeSrc_srcset (a : List (String × String)) :
    getAttr (sanitizeSrc a) "srcset" = getAttr a "srcset" := by
  unfold sanitizeSrc
  cases h : getAttr a "src" with
  | none => rfl
  | some src =>
    show getAttr (if src != "" && strStarts (lowerStr (jsTrim src)) "data:" then
      setAttr a "src" "" else a) "srcset" = getAttr a "srcset"
    by_cases hc : (src != "" && strStarts (lowerStr (jsTrim src)) "data:") = true
    · rw [if_pos hc]
      exact getAttr_setAttr_ne _ _ _ _ (by decide)
    · rw [if_neg hc]

/-- Claim C8: the sanitiser replaces an `img`'s `src` by the empty string
exactly when the trimmed, lower-cased value starts with `data:` (leaving
other URLs unchanged), and when the lower-cased `srcset` contains
`data:` it splits on commas, trims each candidate, drops those starting
with `data:`, and rejoins the rest with `", "`.  A concrete non-data URL
passes through untouched. -/
theorem claim_C8 (a : List (String × String)) (v s : String) :
    (getAttr a "src" = some v →
      getAttr (sanitizeImgAttrs a) "src" =
        some (if strStarts (lowerStr (jsTrim v)) "data:" then "" else v)) ∧
    (getAttr a "srcset" = some s → strContainsSub (lowerStr s) "data:" = true →
      getAttr (sanitizeImgAttrs a) "srcset" = some (srcsetFiltered s)) ∧
    sanitizeImgAttrs [("src", "https://x/y.png")] = [("src", "https://x/y.png")] := by
  refine ⟨?_, ?_, rfl⟩
  · intro hsrc
    unfold sanitizeImgAttrs
    rw [getAttr_sanitizeSrcset_src]
    unfold sanitizeSrc
    rw [hsrc]
    show getAttr (if v != "" && strStarts (lowerStr (jsTrim v)) "data:" then
        setAttr a "src" "" else a) "src" =
      some (if strStarts (lowerStr (jsTrim v)) "data:" then "" else v)
    by_cases hv : v = ""
    · subst hv
      have hd : strStarts (lowerStr (jsTrim "")) "data:" = false := rfl
      rw [hd]
      simpa using hsrc
    · have hvb : (v != "") = true := by simpa using hv
      by_cases hd : strStarts (lowerStr (jsTrim v)) "data:" = true
      · rw [hd, hvb]
        simpa using getAttr_setAttr_self a "src" ""
      · simp only [Bool.not_eq_true] at hd
        rw [hd]
        simpa using hsrc
  · intro hss hdata
    have hsb : (s != "") = true := by
      rcases eq_or_ne s "" with h0 | h0
      · subst h0
        exact absurd hdata (by decide)
      · simpa using h0
    unfold sanitizeImgAttrs sanitizeSrcset
    rw [getAttr_sanitizeSrc_srcset, hss]
    show getAttr (if s != "" && strContainsSub (lowerStr s) "data:" then
        setAttr (sanitizeSrc a) "srcset" (srcsetFiltered s) else sanitizeSrc a) "srcset" =
      some (srcsetFiltered s)
    rw [hsb, hdata]
    simpa using getAttr_setAttr_self (sanitizeSrc a) "srcset" (srcsetFiltered s)

/-- Witness for C8: a base64 `data:` URI is cleared, a plain URL kept,
and a mixed `srcset` is rebuilt without its `data:` candidate. -/
theorem claim_C8_witness :
    getAttr (sanitizeImgAttrs [("src", "data:image/png;base64,AAAA")]) "src" = some "" ∧
    getAttr (sanitizeImgAttrs [("src", "https://x/y.png")]) "src" = some "https://x/y.png" ∧
    getAttr (sanitizeImgAttrs [("srcset", "a.png 1x, data:foo 2x")]) "srcset" =
      some "a.png 1x" := by
  refine ⟨?_, ?_, ?_⟩
  · have h := (claim_C8 [("src", "data:image/png;base64,AAAA")]
      "data:image/png;base64,AAAA" "").1 rfl
    simpa using h
  · have h := (claim_C8 [("src", "https://x/y.png")] "https://x/y.png" "").1 rfl
    simpa using h
  · have h := (claim_C8 [("srcset", "a.png 1x, data:foo 2x")] ""
      "a.png 1x, data:foo 2x").2.1 rfl (by decide)
    simpa using h

/-! ## Claims C3 and C10: the visibility pruner -/

/-- The hidden-pruning walk distributes over sibling concatenation. -/
theorem pruneHiddenL_append (u : Bool) (l1 l2 : List Node) :
    pruneHiddenL u (l1 ++ l2) = pruneHiddenL u l1 ++ pruneHiddenL u l2 := by
  induction l1 with
  | nil => rfl
  | cons c l ih =>
    cases c with
    | text s => simp [pruneHiddenL, ih]
    | comment s => simp [pruneHiddenL, ih]
    | elem t a ch =>
      by_cases hh : (u || hasHiddenFlag t a) = true
      · simp [pruneHiddenL, hh, ih]
      · simp only [Bool.not_eq_true] at hh
        simp [pruneHiddenL, hh, ih]

/-- Claim C3: a self-hidden element child (for instance one whose inline
style declares `display:none`) is deleted with its entire subtree, so
every descendant of it — hidden marker or not — is absent from the
pruned tree; and the pruner never evaluates the node it was called on,
only its children, carrying `hiddenUpstream OR self-hidden(child)`. -/
theorem claim_C3 (u : Bool) (t : String) (a : List (String × String))
    (pre post : List Node) (ht : String) (ha : List (String × String))
    (hch : List Node) (h : hasHiddenFlag ht ha = true) :
    pruneHidden (.elem t a (pre ++ .elem ht ha hch :: post)) u
      = pruneHidden (.elem t a (pre ++ post)) u ∧
    pruneHidden (.elem t a (pre ++ .elem ht ha hch :: post)) u
      = .elem t a (pruneHiddenL u (pre ++ .elem ht ha hch :: post)) := by
  refine ⟨?_, rfl⟩
  show Node.elem t a (pruneHiddenL u (pre ++ .elem ht ha hch :: post))
    = .elem t a (pruneHiddenL u (pre ++ post))
  rw [pruneHiddenL_append, pruneHiddenL_append]
  have hcons : pruneHiddenL u (.elem ht ha hch :: post) = pruneHiddenL u post := by
    simp [pruneHiddenL, h]
  rw [hcons]

/-- Witness for C3: a visible button nested inside a `display:none` parent
disappears with the parent's whole subtree. -/
theorem claim_C3_witness :
    hasHiddenFlag "div" [("style", "display:none")] = true ∧
    pruneHidden (.elem "body" []
        [.elem "div" [("style", "display:none")] [.elem "button" [] [.text "Visible"]]]) false
      = pruneHidden (.elem "body" [] []) false :=
  ⟨rfl,
   (claim_C3 false "body" [] [] [] "div" [("style", "display:none")]
     [.elem "button" [] [.text "Visible"]] rfl).1⟩

/-- Claim C10: starting from `pruneHidden(root, false)`, the
`hiddenUpstream` flag is false in every reachable recursive call (a
hidden child is deleted, never recursed into), so the pruner coincides
extensionally with the simpler pass that pre-order deletes every
self-hidden element's subtree. -/
theorem claim_C10 : ∀ n : Node, pruneHidden n false = pruneHiddenSimpleN n :=
  (@nodeForestInduction
    (fun n => pruneHidden n false = pruneHiddenSimpleN n)
    (fun l => pruneHiddenL false l = pruneHiddenSimpleL l)
    (fun _ => rfl) (fun _ => rfl)
    (fun t a ch hq => by simp [pruneHidden, pruneHiddenSimpleN, hq])
    rfl
    (fun c l hc hl => by
      cases c with
      | text s => simp [pruneHiddenL, pruneHiddenSimpleL, hl]
      | comment s => simp [pruneHiddenL, pruneHiddenSimpleL, hl]
      | elem t a ch =>
        cases hh : hasHiddenFlag t a with
        | true => simp [pruneHiddenL, pruneHiddenSimpleL, hh, hl]
        | false => simp [pruneHiddenL, pruneHiddenSimpleL, hh, hl, hc])).1

/-! ## Claim C5: unwrapping of unknown elements -/

/-- The unwrap walk distributes over sibling concatenation. -/
theorem unwrapChildren_append (l1 l2 : List Node) :
    unwrapChildren (l1 ++ l2) = unwrapChildren l1 ++ unwrapChildren l2 := by
  induction l1 with
  | nil => rfl
  | cons c l ih => simp [unwrapChildren, ih]

/-- Claim C5: an element whose tag is outside the allowed-HTML-tag
vocabulary is unwrapped — its recursively processed children are spliced
into the parent's child list at its former position, in order, and no
node for the wrapper survives; nested unknown wrappers dissolve too, and
concretely a `button#b1` inside nested unknown custom elements still
serializes while no token of the custom tags appears. -/
theorem claim_C5 (t : String) (a : List (String × String)) (ch : List Node)
    (pre post : List Node) (h : ALLOWED_HTML_TAGS.contains t = false) :
    unwrapChildren (pre ++ .elem t a ch :: post)
      = unwrapChildren pre ++ unwrapChildren ch ++ unwrapChildren post ∧
    compactPage defaultOptions docWidget = "(html (body (button#b1 \"Hi\")))" := by
  refine ⟨?_, rfl⟩
  have hmem : t ∉ ALLOWED_HTML_TAGS := fun hm => by
    have h2 : ALLOWED_HTML_TAGS.contains t = true := List.elem_eq_true_of_mem hm
    rw [h2] at h
    exact absurd h (by simp)
  rw [unwrapChildren_append]
  simp [unwrapChildren, unwrapN, h, hmem]

/-- Witness for C5 at a concrete wrapper. -/
theorem claim_C5_witness :
    ALLOWED_HTML_TAGS.contains "my-widget" = false ∧
    unwrapChildren ([] ++ Node.elem "my-widget" [("class", "w")]
        [Node.elem "button" [("id", "b1")] [Node.text "Hi"]] :: [])
      = [Node.elem "button" [("id", "b1")] [Node.text "Hi"]] :=
  ⟨by decide, by
    have h := (claim_C5 "my-widget" [("class", "w")]
      [Node.elem "button" [("id", "b1")] [Node.text "Hi"]] [] [] (by decide)).1
    exact h.trans rfl⟩

/-! ## Claim C4: the relevance pruner -/

/-- Claim C4: under `relevantOnly`, an element with a non-interactive
tag, no non-empty `id`, no direct non-whitespace text child (after
pruning), and no surviving interactive descendant receives verdict
"delete" (children are decided before the parent, so the conditions are
read off the already-pruned children); an otherwise-identical element
with a non-empty `id` is kept; and `html` and `body` elements are always
kept regardless of the predicate. -/
theorem claim_C4 (inter : List String) (t : String)
    (a : List (String × String)) (ch : List Node) :
    (inter.contains t = false → t ≠ "html" → t ≠ "body" →
      jsTrim (getAttrD a "id") = "" →
      hasDirectText (dropWsText (pruneRelL inter ch)) = false →
      anyElemTag inter (dropWsText (pruneRelL inter ch)) = false →
      (pruneRel inter (.elem t a ch)).2 = false) ∧
    (jsTrim (getAttrD a "id") ≠ "" → (pruneRel inter (.elem t a ch)).2 = true) ∧
    (pruneRel inter (.elem "html" a ch)).2 = true ∧
    (pruneRel inter (.elem "body" a ch)).2 = true := by
  refine ⟨?_, ?_, ?_, ?_⟩
  · intro hint hhtml hbody hid htext hdesc
    have hh : (t == "html") = false := by simpa using hhtml
    have hb : (t == "body") = false := by simpa using hbody
    have hmem : t ∉ inter := fun hm => by
      have h2 : inter.contains t = true := List.elem_eq_true_of_mem hm
      rw [h2] at hint
      exact absurd hint (by simp)
    simp [pruneRel, pruneRelN, pruneRelKeep, shouldKeep, hh, hb, hint, hid, htext, hdesc, hmem]
  · intro hid
    simp [pruneRel, pruneRelN, pruneRelKeep, shouldKeep, hid]
  · simp [pruneRel, pruneRelN, pruneRelKeep]
  · simp [pruneRel, pruneRelN, pruneRelKeep]

/-- Witness for C4: a decorative `section` with only a pruned `p` child
is dropped, the same element with `id="menu"` is kept, and `body` is
kept unconditionally. -/
theorem claim_C4_witness :
    (pruneRel (interLower defaultOptions)
      (.elem "section" [("class", "x")] [.elem "p" [] []])).2 = false ∧
    (pruneRel (interLower defaultOptions)
      (.elem "section" [("id", "menu"), ("class", "x")] [.elem "p" [] []])).2 = true ∧
    (pruneRel (interLower defaultOptions) (.elem "body" [] [])).2 = true :=
  ⟨(claim_C4 (interLower defaultOptions) "section" [("class", "x")]
      [.elem "p" [] []]).1 (by decide) (by decide) (by decide) rfl rfl rfl,
   (claim_C4 (interLower defaultOptions) "section" [("id", "menu"), ("class", "x")]
      [.elem "p" [] []]).2.1 (by decide),
   (claim_C4 (interLower defaultOptions) "body" [] []).2.2.2⟩

/-! ## Claim C9: deterministic serialization and attribute order -/

/-- The character-list comparison is irreflexive. -/
theorem listLtChar_irrefl : ∀ a : List Char, listLtChar a a = false := by
  intro a
  induction a with
  | nil => rfl
  | cons x xs ih => simp [listLtChar, lt_irrefl, ih]

/-- The character-list comparison is transitive. -/
theorem listLtChar_trans : ∀ a b c : List Char,
    listLtChar a b = true → listLtChar b c = true → listLtChar a c = true := by
  intro a
  induction a with
  | nil =>
    intro b c hab hbc
    cases b with
    | nil => exact absurd hab (by simp [listLtChar])
    | cons y ys =>
      cases c with
      | nil => exact absurd hbc (by simp [listLtChar])
      | cons z zs => simp [listLtChar]
  | cons x xs ih =>
    intro b c hab hbc
    cases b with
    | nil => exact absurd hab (by simp [listLtChar])
    | cons y ys =>
      cases c with
      | nil => exact absurd hbc (by simp [listLtChar])
      | cons z zs =>
        simp only [listLtChar] at hab hbc ⊢
        by_cases hxy : x < y
        · by_cases hyz : y < z
          · simp [lt_trans hxy hyz]
          · by_cases hzy : z < y
            · simp [hyz, hzy] at hbc
            · have hyzeq : y = z := le_antisymm (not_lt.mp hzy) (not_lt.mp hyz)
              subst hyzeq
              simp [hxy]
        · by_cases hyx : y < x
          · simp [hxy, hyx] at hab
          · have hxyeq : x = y := le_antisymm (not_lt.mp hyx) (not_lt.mp hxy)
            subst hxyeq
            by_cases hyz : x < z
            · simp [hyz]
            · by_cases hzy : z < x
              · simp [hyz, hzy] at hbc
              · have hyzeq : x = z := le_antisymm (not_lt.mp hzy) (not_lt.mp hyz)
                subst hyzeq
                simp only [lt_irrefl, if_false]
                simp only [hxy, if_neg, lt_irrefl] at hab hbc
                exact ih ys zs hab hbc

/-- The character-list comparison is trichotomous. -/
theorem listLtChar_trichot : ∀ a b : List Char,
    listLtChar a b = true ∨ listLtChar b a = true ∨ a = b := by
  intro a
  induction a with
  | nil =>
    intro b
    cases b with
    | nil => simp
    | cons y ys => simp [listLtChar]
  | cons x xs ih =>
    intro b
    cases b with
    | nil => simp [listLtChar]
    | cons y ys =>
      rcases lt_trichotomy x y with hxy | hxy | hxy
      · left
        simp [listLtChar, hxy]
      · subst hxy
        rcases ih ys with h | h | h
        · left
          simp [listLtChar, h]
        · right; left
          simp [listLtChar, h]
        · right; right
          rw [h]
      · right; left
        simp [listLtChar, hxy]

/-- Not-less-than is transitive for the string comparator. -/
theorem strLt_neg_trans (x y z : String) (h1 : strLt y x = false)
    (h2 : strLt z y = false) : strLt z x = false := by
  unfold strLt at h1 h2 ⊢
  by_cases h : listLtChar z.data x.data = true
  · exfalso
    rcases listLtChar_trichot y.data z.data with hyz | hzy | hyzeq
    · have := listLtChar_trans _ _ _ hyz h
      rw [this] at h1
      exact absurd h1 (by simp)
    · rw [hzy] at h2
      exact absurd h2 (by simp)
    · rw [hyzeq] at h1
      rw [h] at h1
      exact absurd h1 (by simp)
  · simpa using h

/-- Members of an insertion are the new element or old members. -/
theorem mem_jsSortInsert (z x : String × String) (l : List (String × String)) :
    z ∈ jsSortInsert x l → z = x ∨ z ∈ l := by
  induction l with
  | nil => simp [jsSortInsert]
  | cons y ys ih =>
    by_cases h : strLt y.1 x.1 = true
    · simp only [jsSortInsert, h, if_true, List.mem_cons]
      rintro (rfl | hz)
      · right; left; rfl
      · rcases ih hz with h1 | h1
        · left; exact h1
        · right; right; exact h1
    · intro hz
      have he : jsSortInsert x (y :: ys) = x :: y :: ys := by simp [jsSortInsert, h]
      rw [he] at hz
      simpa using hz

/-- Insertion preserves sortedness by non-decreasing key. -/
theorem pairwise_jsSortInsert (x : String × String) (l : List (String × String))
    (h : l.Pairwise (fun p r => strLt r.1 p.1 = false)) :
    (jsSortInsert x l).Pairwise (fun p r => strLt r.1 p.1 = false) := by
  induction l with
  | nil => simp [jsSortInsert]
  | cons y ys ih =>
    rcases List.pairwise_cons.mp h with ⟨hy, hys⟩
    by_cases hc : strLt y.1 x.1 = true
    · simp only [jsSortInsert, hc, if_true]
      refine List.pairwise_cons.mpr ⟨?_, ih hys⟩
      intro z hz
      rcases mem_jsSortInsert z x ys hz with rfl | hzys
      · by_cases hxy : listLtChar z.1.data y.1.data = true
        · exfalso
          have hc2 : listLtChar y.1.data z.1.data = true := hc
          have h2 := listLtChar_trans _ _ _ hxy hc2
          rw [listLtChar_irrefl] at h2
          exact absurd h2 (by simp)
        · simpa [strLt] using hxy
      · exact hy z hzys
    · simp only [jsSortInsert, hc, if_false]
      have hcx : strLt y.1 x.1 = false := by simpa using hc
      refine List.pairwise_cons.mpr ⟨?_, h⟩
      intro z hz
      rcases List.mem_cons.mp hz with rfl | hzys
      · exact hcx
      · exact strLt_neg_trans x.1 y.1 z.1 hcx (hy z hzys)

/-- The serializer's sort yields non-decreasing keys. -/
theorem pairwise_jsSort (l : List (String × String)) :
    (jsSort l).Pairwise (fun p r => strLt r.1 p.1 = false) := by
  induction l with
  | nil => simp [jsSort]
  | cons x xs ih => exact pairwise_jsSortInsert x (jsSort xs) ih

/-- Claim C9: serialization is a pure function of the tree and options
(two runs agree byte for byte); the attribute block lists attributes in
non-decreasing lexicographic key order; and class tokens of the head
appear in attribute-value (document) order, not sorted. -/
theorem claim_C9 (opts : Options) (sk : List String)
    (a : List (String × String)) (n : Node) (d : Nat) :
    emit opts sk n d = emit opts sk n d ∧
    (attrItems opts sk a).Pairwise (fun p r : String × String => strLt r.1 p.1 = false) ∧
    headToken defaultOptions "div" [("class", "zeta alpha")] = ".zeta.alpha" :=
  ⟨rfl, pairwise_jsSort _, rfl⟩

/-! ## Claim C7: the denylist invariant -/

/-- Element tags of a forest split over concatenation. -/
theorem elemTagsL_append (l1 l2 : List Node) :
    elemTagsL (l1 ++ l2) = elemTagsL l1 ++ elemTagsL l2 := by
  induction l1 with
  | nil => rfl
  | cons c l ih => simp [elemTagsL, ih]

/-- Comment removal introduces no element tag. -/
theorem tags_removeComments_sub :
    (∀ n : Node, ∀ tg, tg ∈ elemTagsN (removeComments n) → tg ∈ elemTagsN n) ∧
    (∀ l : List Node, ∀ tg, tg ∈ elemTagsL (removeCommentsL l) → tg ∈ elemTagsL l) :=
  @nodeForestInduction
    (fun n => ∀ tg, tg ∈ elemTagsN (removeComments n) → tg ∈ elemTagsN n)
    (fun l => ∀ tg, tg ∈ elemTagsL (removeCommentsL l) → tg ∈ elemTagsL l)
    (fun _ _ h => h) (fun _ _ h => h)
    (fun t a ch hq => by
      intro tg h
      simp only [removeComments, elemTagsN, List.mem_cons] at h ⊢
      rcases h with rfl | h
      · left; rfl
      · right; exact hq tg h)
    (fun _ h => h)
    (fun c l hc hl => by
      intro tg h
      cases c with
      | text s =>
        simp only [removeCommentsL, elemTagsL, elemTagsN] at h ⊢
        exact hl tg h
      | comment s =>
        simp only [removeCommentsL, elemTagsL, elemTagsN] at h ⊢
        exact hl tg h
      | elem t a ch =>
        simp only [removeCommentsL, elemTagsL, List.mem_append] at h ⊢
        rcases h with h | h
        · left; exact hc tg h
        · right; exact hl tg h)

/-- After the denylist pass, no element of the processed forest carries a
denylisted tag. -/
theorem tags_removeBannedL_free :
    (∀ n : Node, ∀ tg, tg ∈ elemTagsL (removeBannedL (childrenOf n)) →
      REMOVE_TAGS.contains tg = false) ∧
    (∀ l : List Node, ∀ tg, tg ∈ elemTagsL (removeBannedL l) →
      REMOVE_TAGS.contains tg = false) :=
  @nodeForestInduction
    (fun n => ∀ tg, tg ∈ elemTagsL (removeBannedL (childrenOf n)) →
      REMOVE_TAGS.contains tg = false)
    (fun l => ∀ tg, tg ∈ elemTagsL (removeBannedL l) →
      REMOVE_TAGS.contains tg = false)
    (fun s => by intro tg h; exact absurd h (by simp [childrenOf, removeBannedL, elemTagsL]))
    (fun s => by intro tg h; exact absurd h (by simp [childrenOf, removeBannedL, elemTagsL]))
    (fun t a ch hq => hq)
    (by intro tg h; exact absurd h (by simp [removeBannedL, elemTagsL]))
    (fun c l hc hl => by
      intro tg h
      cases c with
      | text s =>
        simp only [removeBannedL, elemTagsL, elemTagsN] at h ⊢
        exact hl tg h
      | comment s =>
        simp only [removeBannedL, elemTagsL, elemTagsN] at h ⊢
        exact hl tg h
      | elem t a ch =>
        by_cases hb : REMOVE_TAGS.contains t = true
        · have hm : t ∈ REMOVE_TAGS := List.mem_of_elem_eq_true hb
          rw [show removeBannedL (Node.elem t a ch :: l) = removeBannedL l by
            simp [removeBannedL, hb, hm]] at h
          exact hl tg h
        · have hbf : REMOVE_TAGS.contains t = false := by simpa using hb
          have hm : t ∉ REMOVE_TAGS := fun hmm => hb (List.elem_eq_true_of_mem hmm)
          rw [show removeBannedL (Node.elem t a ch :: l)
              = removeBannedN (.elem t a ch) :: removeBannedL l by
            simp [removeBannedL, hbf, hm]] at h
          simp only [elemTagsL, removeBannedN, elemTagsN, List.mem_append,
            List.mem_cons] at h
          rcases h with (rfl | h) | h
          · exact hbf
          · exact hc tg h
          · exact hl tg h)

/-- The namespaced-tag pass introduces no element tag. -/
theorem tags_removeNamespaced_sub :
    (∀ n : Node, ∀ tg, tg ∈ elemTagsN (removeNamespacedN n) → tg ∈ elemTagsN n) ∧
    (∀ l : List Node, ∀ tg, tg ∈ elemTagsL (removeNamespacedL l) → tg ∈ elemTagsL l) :=
  @nodeForestInduction
    (fun n => ∀ tg, tg ∈ elemTagsN (removeNamespacedN n) → tg ∈ elemTagsN n)
    (fun l => ∀ tg, tg ∈ elemTagsL (removeNamespacedL l) → tg ∈ elemTagsL l)
    (fun _ _ h => h) (fun _ _ h => h)
    (fun t a ch hq => by
      intro tg h
      simp only [removeNamespacedN, elemTagsN, List.mem_cons] at h ⊢
      rcases h with rfl | h
      · left; rfl
      · right; exact hq tg h)
    (fun _ h => h)
    (fun c l hc hl => by
      intro tg h
      cases c with
      | text s => exact hl tg h
      | comment s => exact hl tg h
      | elem t a ch =>
        by_cases hb : t.data.contains ':' = true
        · have hm : ':' ∈ t.data := List.mem_of_elem_eq_true hb
          rw [show removeNamespacedL (Node.elem t a ch :: l) = removeNamespacedL l by
            simp [removeNamespacedL, hb, hm]] at h
          simp only [elemTagsL, elemTagsN, List.mem_append, List.mem_cons]
          right
          exact hl tg h
        · have hbf : t.data.contains ':' = false := by simpa using hb
          have hm : ':' ∉ t.data := fun hmm => hb (List.elem_eq_true_of_mem hmm)
          rw [show removeNamespacedL (Node.elem t a ch :: l)
              = removeNamespacedN (.elem t a ch) :: removeNamespacedL l by
            simp [removeNamespacedL, hbf, hm]] at h
          simp only [elemTagsL, List.mem_append] at h ⊢
          rcases h with h | h
          · left; exact hc tg h
          · right; exact hl tg h)

/-- Unwrapping introduces no element tag. -/
theorem tags_unwrap_sub :
    (∀ n : Node, ∀ tg, tg ∈ elemTagsL (unwrapN n) → tg ∈ elemTagsN n) ∧
    (∀ l : List Node, ∀ tg, tg ∈ elemTagsL (unwrapChildren l) → tg ∈ elemTagsL l) :=
  @nodeForestInduction
    (fun n => ∀ tg, tg ∈ elemTagsL (unwrapN n) → tg ∈ elemTagsN n)
    (fun l => ∀ tg, tg ∈ elemTagsL (unwrapChildren l) → tg ∈ elemTagsL l)
    (fun s => by intro tg h; simp [unwrapN, elemTagsL, elemTagsN] at h)
    (fun s => by intro tg h; simp [unwrapN, elemTagsL, elemTagsN] at h)
    (fun t a ch hq => by
      intro tg h
      by_cases hb : ALLOWED_HTML_TAGS.contains t = true
      · have hm : t ∈ ALLOWED_HTML_TAGS := List.mem_of_elem_eq_true hb
        rw [show unwrapN (Node.elem t a ch) = [.elem t a (unwrapChildren ch)] by
          simp [unwrapN, hb, hm]] at h
        have h2 : tg ∈ elemTagsN (Node.elem t a (unwrapChildren ch)) := by
          simpa [elemTagsL] using h
        simp only [elemTagsN, List.mem_cons] at h2 ⊢
        rcases h2 with rfl | h2
        · left; rfl
        · right; exact hq tg h2
      · have hm : t ∉ ALLOWED_HTML_TAGS := fun hmm => hb (List.elem_eq_true_of_mem hmm)
        rw [show unwrapN (Node.elem t a ch) = unwrapChildren ch by
          simp [unwrapN, hb, hm]] at h
        simp only [elemTagsN, List.mem_cons]
        right
        exact hq tg h)
    (fun _ h => h)
    (fun c l hc hl => by
      intro tg h
      rw [show unwrapChildren (c :: l) = unwrapN c ++ unwrapChildren l from rfl,
        elemTagsL_append] at h
      simp only [elemTagsL, List.mem_append] at h ⊢
      rcases h with h | h
      · left; exact hc tg h
      · right; exact hl tg h)

/-- The data-URI pass changes no element tag. -/
theorem tags_stripDataUris_eq :
    (∀ n : Node, elemTagsN (stripDataUrisN n) = elemTagsN n) ∧
    (∀ l : List Node, elemTagsL (stripDataUrisL l) = elemTagsL l) :=
  @nodeForestInduction
    (fun n => elemTagsN (stripDataUrisN n) = elemTagsN n)
    (fun l => elemTagsL (stripDataUrisL l) = elemTagsL l)
    (fun _ => rfl) (fun _ => rfl)
    (fun t a ch hq => by simp [stripDataUrisN, elemTagsN, hq])
    rfl
    (fun c l hc hl => by simp [stripDataUrisL, elemTagsL, hc, hl])

/-- The hidden-subtree pruner introduces no element tag. -/
theorem tags_pruneHidden_sub :
    (∀ n : Node, ∀ u tg, tg ∈ elemTagsN (pruneHidden n u) → tg ∈ elemTagsN n) ∧
    (∀ l : List Node, ∀ u tg, tg ∈ elemTagsL (pruneHiddenL u l) → tg ∈ elemTagsL l) :=
  @nodeForestInduction
    (fun n => ∀ u tg, tg ∈ elemTagsN (pruneHidden n u) → tg ∈ elemTagsN n)
    (fun l => ∀ u tg, tg ∈ elemTagsL (pruneHiddenL u l) → tg ∈ elemTagsL l)
    (fun _ _ _ h => h) (fun _ _ _ h => h)
    (fun t a ch hq => by
      intro u tg h
      simp only [pruneHidden, elemTagsN, List.mem_cons] at h ⊢
      rcases h with rfl | h
      · left; rfl
      · right; exact hq u tg h)
    (fun _ _ h => h)
    (fun c l hc hl => by
      intro u tg h
      cases c with
      | text s => exact hl u tg h
      | comment s => exact hl u tg h
      | elem t a ch =>
        by_cases hb : (u || hasHiddenFlag t a) = true
        · rw [show pruneHiddenL u (Node.elem t a ch :: l) = pruneHiddenL u l by
            simp [pruneHiddenL, hb]] at h
          simp only [elemTagsL, List.mem_append]
          right
          exact hl u tg h
        · have hbf : (u || hasHiddenFlag t a) = false := by simpa using hb
          rw [show pruneHiddenL u (Node.elem t a ch :: l)
              = pruneHidden (.elem t a ch) (u || hasHiddenFlag t a) :: pruneHiddenL u l by
            simp [pruneHiddenL, hbf]] at h
          simp only [elemTagsL, List.mem_append] at h ⊢
          rcases h with h | h
          · left; exact hc (u || hasHiddenFlag t a) tg h
          · right; exact hl u tg h)

/-- The attribute-strip pass changes no element tag. -/
theorem tags_stripAttrs_eq (opts : Options) (keep : List String) :
    (∀ n : Node, elemTagsN (stripAttrsN opts keep n) = elemTagsN n) ∧
    (∀ l : List Node, elemTagsL (stripAttrsL opts keep l) = elemTagsL l) :=
  @nodeForestInduction
    (fun n => elemTagsN (stripAttrsN opts keep n) = elemTagsN n)
    (fun l => elemTagsL (stripAttrsL opts keep l) = elemTagsL l)
    (fun _ => rfl) (fun _ => rfl)
    (fun t a ch hq => by simp [stripAttrsN, elemTagsN, hq])
    rfl
    (fun c l hc hl => by simp [stripAttrsL, elemTagsL, hc, hl])

/-- Dropping whitespace-only text children changes no element tag. -/
theorem tags_dropWsText_sub (l : List Node) :
    ∀ tg, tg ∈ elemTagsL (dropWsText l) → tg ∈ elemTagsL l := by
  induction l with
  | nil => intro tg h; exact h
  | cons c rest ih =>
    intro tg h
    cases c with
    | text s =>
      rw [show dropWsText (Node.text s :: rest)
          = if !(jsTrim s == "") then Node.text s :: dropWsText rest else dropWsText rest from
        List.filter_cons] at h
      simp only [elemTagsL, elemTagsN]
      by_cases hp : (!(jsTrim s == "")) = true
      · rw [if_pos hp] at h
        simp only [elemTagsL, elemTagsN, List.nil_append] at h
        exact ih tg h
      · rw [if_neg hp] at h
        exact ih tg h
    | comment s =>
      rw [show dropWsText (Node.comment s :: rest)
          = Node.comment s :: dropWsText rest from List.filter_cons_of_pos rfl] at h
      simp only [elemTagsL, elemTagsN, List.nil_append] at h ⊢
      exact ih tg h
    | elem t a ch =>
      rw [show dropWsText (Node.elem t a ch :: rest)
          = Node.elem t a ch :: dropWsText rest from List.filter_cons_of_pos rfl] at h
      simp only [elemTagsL, List.mem_append] at h ⊢
      rcases h with h | h
      · left; exact h
      · right; exact ih tg h

/-- The relevance pruner introduces no element tag. -/
theorem tags_pruneRel_sub (inter : List String) :
    (∀ n : Node, ∀ tg, tg ∈ elemTagsN (pruneRelN inter n) → tg ∈ elemTagsN n) ∧
    (∀ l : List Node, ∀ tg, tg ∈ elemTagsL (pruneRelL inter l) → tg ∈ elemTagsL l) :=
  @nodeForestInduction
    (fun n => ∀ tg, tg ∈ elemTagsN (pruneRelN inter n) → tg ∈ elemTagsN n)
    (fun l => ∀ tg, tg ∈ elemTagsL (pruneRelL inter l) → tg ∈ elemTagsL l)
    (fun _ _ h => h) (fun _ _ h => h)
    (fun t a ch hq => by
      intro tg h
      simp only [pruneRelN, elemTagsN, List.mem_cons] at h ⊢
      rcases h with rfl | h
      · left; rfl
      · right; exact hq tg (tags_dropWsText_sub _ tg h))
    (fun _ h => h)
    (fun c l hc hl => by
      intro tg h
      cases c with
      | text s => exact hl tg h
      | comment s => exact hl tg h
      | elem t a ch =>
        by_cases hb : pruneRelKeep inter (pruneRelN inter (.elem t a ch)) = true
        · rw [show pruneRelL inter (Node.elem t a ch :: l)
              = pruneRelN inter (.elem t a ch) :: pruneRelL inter l by
            simp [pruneRelL, hb]] at h
          simp only [elemTagsL, List.mem_append] at h ⊢
          rcases h with h | h
          · left; exact hc tg h
          · right; exact hl tg h
        · rw [show pruneRelL inter (Node.elem t a ch :: l) = pruneRelL inter l by
            simp [pruneRelL, hb]] at h
          simp only [elemTagsL, List.mem_append]
          right
          exact hl tg h)

/-- Claim C7: once the Structural Filter has run, no element anywhere in
the working tree carries a tag of the fixed denylist (given that the
document root — `html` — is not denylisted itself), no later stage
reintroduces one, so the final pipeline tree is denylist-free; and
concretely a document with a `script` subtree serializes without any of
the script's nested tags or text. -/
theorem claim_C7 (opts : Options) (root : Node)
    (hroot : REMOVE_TAGS.contains (rootTag root) = false) :
    (∀ tg ∈ elemTagsN (unwrapPass (removeNamespacedPass (removeBannedPass
        (removeComments root)))), REMOVE_TAGS.contains tg = false) ∧
    (∀ tg ∈ elemTagsN (pipelineTree opts root), REMOVE_TAGS.contains tg = false) ∧
    compactPage defaultOptions docScript = "(html (body (button \"OK\")))" := by
  have hstruct : ∀ tg ∈ elemTagsN (unwrapPass (removeNamespacedPass (removeBannedPass
      (removeComments root)))), REMOVE_TAGS.contains tg = false := by
    cases root with
    | text s => intro tg h; exact absurd h (by
        simp [removeComments, removeBannedPass, removeNamespacedPass, unwrapPass, elemTagsN])
    | comment s => intro tg h; exact absurd h (by
        simp [removeComments, removeBannedPass, removeNamespacedPass, unwrapPass, elemTagsN])
    | elem t a ch =>
      intro tg h
      simp only [removeComments, removeBannedPass, removeNamespacedPass, unwrapPass,
        elemTagsN, List.mem_cons] at h
      rcases h with rfl | h
      · simpa [rootTag] using hroot
      · have h1 := tags_unwrap_sub.2 _ tg h
        have h2 := tags_removeNamespaced_sub.2 _ tg h1
        exact tags_removeBannedL_free.2 _ tg h2
  refine ⟨hstruct, ?_, rfl⟩
  intro tg h
  apply hstruct
  -- peel the post-structural stages, none of which adds an element tag
  have hdata : ∀ n : Node, ∀ tg', tg' ∈ elemTagsN (stripDataUrisPass n) →
      tg' ∈ elemTagsN n := by
    intro n tg' h'
    cases n with
    | text s => exact h'
    | comment s => exact h'
    | elem t a ch =>
      simpa [stripDataUrisPass, elemTagsN, tags_stripDataUris_eq.2 ch] using h'
  have hhide : ∀ n : Node, ∀ tg', tg' ∈ elemTagsN (pruneHidden n false) →
      tg' ∈ elemTagsN n := fun n tg' h' => tags_pruneHidden_sub.1 n false tg' h'
  have hstrip : ∀ n : Node, ∀ tg',
      tg' ∈ elemTagsN (if opts.stripAttrs then
        stripAttrsPass opts (keepLower opts) n else n) → tg' ∈ elemTagsN n := by
    intro n tg' h'
    by_cases hs : opts.stripAttrs = true
    · rw [if_pos hs] at h'
      cases n with
      | text s => exact h'
      | comment s => exact h'
      | elem t a ch =>
        simpa [stripAttrsPass, elemTagsN,
          (tags_stripAttrs_eq opts (keepLower opts)).2 ch] using h'
    · rwa [if_neg hs] at h'
  have hrel : ∀ n : Node, ∀ tg',
      tg' ∈ elemTagsN (if opts.relevantOnly then
        pruneRelPass (interLower opts) n else n) → tg' ∈ elemTagsN n := by
    intro n tg' h'
    by_cases hs : opts.relevantOnly = true
    · rw [if_pos hs] at h'
      exact (tags_pruneRel_sub (interLower opts)).1 n tg'
        (by simpa [pruneRelPass, pruneRel] using h')
    · rwa [if_neg hs] at h'
  rw [pipelineTree] at h
  exact hdata _ tg (hhide _ tg (hstrip _ tg (hrel _ tg h)))

/-- Witness for C7: in the compacted `docScript`, the surviving tag
`button` is not denylisted. -/
theorem claim_C7_witness :
    REMOVE_TAGS.contains (rootTag docScript) = false ∧
    REMOVE_TAGS.contains "button" = false :=
  ⟨by decide,
   (claim_C7 defaultOptions docScript (by decide)).2.1 "button" (by decide)⟩
